import Mathlib

/-!
Verification of `expand_and_compare_genes.py`.

Shallow embedding of the script's core logic:
  - `load_gene_info` builds a synonym index (a Python dict, modelled as an
    association list with insertion-order iteration and in-place update);
  - `expand_gene_set_with_synonyms` expands a gene set with the synonyms of
    its members that occur as canonical keys;
  - `compare_files` emits one result record per gene of file B.
Strings are Lean `String`; a Python `set` is `Finset String`; a Python dict
is an association list `List (String × Finset String)` whose iteration
order is the list order (Python dicts preserve insertion order, and
assignment to an existing key updates it in place). The Python string
primitives used by the script (`str.strip`, `str.lower`, `str.split('|')`,
`sorted`) are modelled by structurally recursive functions on the
character list so that every definition evaluates by kernel reduction.
-/

/-- Model of Python `str.strip()`: drop whitespace from both ends. -/
def pyStrip (s : String) : String :=
  ⟨((s.data.dropWhile Char.isWhitespace).reverse.dropWhile Char.isWhitespace).reverse⟩

/-- Model of Python `str.lower()`: lowercase every character. -/
def pyLower (s : String) : String := ⟨s.data.map Char.toLower⟩

/-- Lexicographic (code-point) comparison of character lists, the order
Python string comparison uses. -/
def lexLe : List Char → List Char → Bool
  | [], _ => true
  | _ :: _, [] => false
  | c :: cs, d :: ds => if c < d then true else if d < c then false else lexLe cs ds

/-- The string order used by Python `sorted`, as a relation. -/
def pyLe (a b : String) : Prop := lexLe a.data b.data = true

instance : DecidableRel pyLe := fun a b => instDecidableEqBool (lexLe a.data b.data) true

/-- Model of Python `sorted` on a list of strings. -/
def pySorted (l : List String) : List String := List.insertionSort pyLe l

/-- `lexLe` agrees with the lexicographic strict order on character lists. -/
theorem lexLe_iff : ∀ cs ds : List Char, lexLe cs ds = true ↔ ¬ List.Lex (· < ·) ds cs
  | [], ds => by
    simp only [lexLe]
    constructor
    · intro _ h
      cases h
    · intro _
      trivial
  | c :: cs, [] => by
    simp only [lexLe]
    constructor
    · intro h
      exact absurd h (by simp)
    · intro h
      exact absurd List.Lex.nil h
  | c :: cs, d :: ds => by
    by_cases h₁ : c < d
    · simp only [lexLe, if_pos h₁]
      constructor
      · intro _ hlt
        cases hlt with
        | cons h' => exact lt_irrefl _ h₁
        | rel h' => exact absurd h₁ (asymm h')
      · intro _
        trivial
    · by_cases h₂ : d < c
      · simp only [lexLe, if_neg h₁, if_pos h₂]
        constructor
        · intro h
          cases h
        · intro h
          exact absurd (List.Lex.rel h₂) h
      · have hcd : c = d := le_antisymm (not_lt.mp h₂) (not_lt.mp h₁)
        subst hcd
        simp only [lexLe, if_neg h₁]
        rw [lexLe_iff cs ds]
        constructor
        · intro h hlt
          cases hlt with
          | cons h' => exact h h'
          | rel h' => exact h₁ h'
        · intro h hlt
          exact h (List.Lex.cons hlt)

/-- `pyLe` is the standard linear order on `String`. -/
theorem pyLe_iff (a b : String) : pyLe a b ↔ a ≤ b := by
  rw [String.le_iff_toList_le, ← not_lt]
  show lexLe a.data b.data = true ↔ ¬ b.toList < a.toList
  rw [lexLe_iff]
  rfl

instance : IsTotal String pyLe :=
  ⟨fun a b => by
    rw [pyLe_iff, pyLe_iff]
    exact le_total a b⟩

instance : IsTrans String pyLe :=
  ⟨fun a b c hab hbc => by
    rw [pyLe_iff] at *
    exact le_trans hab hbc⟩

instance : IsAntisymm String pyLe :=
  ⟨fun a b hab hba => by
    rw [pyLe_iff] at *
    exact le_antisymm hab hba⟩

theorem pySorted_sorted (l : List String) : List.Sorted pyLe (pySorted l) :=
  List.sorted_insertionSort pyLe l

theorem pySorted_perm (l : List String) : List.Perm (pySorted l) l :=
  List.perm_insertionSort pyLe l

theorem pySorted_eq_of_perm {l l' : List String} (h : List.Perm l l') :
    pySorted l = pySorted l' :=
  List.eq_of_perm_of_sorted ((pySorted_perm l).trans (h.trans (pySorted_perm l').symm))
    (pySorted_sorted l) (pySorted_sorted l')

/-- Python `sorted` applied to a multiset of strings (well defined because
sorting is invariant under permutation of the input). -/
def pySortedMul (m : Multiset String) : List String :=
  Quot.liftOn m pySorted (fun _ _ h => pySorted_eq_of_perm h)

/-- Python `sorted` applied to a set of strings, as the script does with
`sorted(synonyms_b)`. -/
def pySortedFin (s : Finset String) : List String := pySortedMul s.val

theorem pySortedMul_coe (m : Multiset String) : (pySortedMul m : Multiset String) = m :=
  Quot.inductionOn m (fun l => Multiset.coe_eq_coe.mpr (pySorted_perm l))

theorem pySortedMul_sorted (m : Multiset String) : List.Sorted pyLe (pySortedMul m) :=
  Quot.inductionOn m (fun l => pySorted_sorted l)

/-- The executable rendering order coincides with Mathlib's canonical
lexicographically sorted list of a finite set of strings. -/
theorem pySortedFin_eq_sort (s : Finset String) : pySortedFin s = s.sort (· ≤ ·) := by
  apply List.eq_of_perm_of_sorted (r := (fun a b : String => a ≤ b))
  · rw [← Multiset.coe_eq_coe, pySortedFin, pySortedMul_coe, Finset.sort_eq]
  · exact (pySortedMul_sorted s.val).imp (fun h => (pyLe_iff _ _).mp h)
  · exact Finset.sort_sorted _ s

/-- Model of Python `str.split('|')`: auxiliary accumulator form. -/
def splitPipeAux : List Char → List Char → List String
  | [], acc => [⟨acc.reverse⟩]
  | c :: cs, acc =>
    if c = '|' then ⟨acc.reverse⟩ :: splitPipeAux cs []
    else splitPipeAux cs (c :: acc)

/-- Model of Python `str.split('|')`. -/
def splitPipe (s : String) : List String := splitPipeAux s.data []

/-- A gene dictionary: the Python dict mapping canonical symbol to its
synonym set, as an association list in insertion order. -/
abbrev GeneDict : Type := List (String × Finset String)

/-- Membership/lookup in the dict: `gene in gene_dict` and `gene_dict[gene]`.
Python dict keys are unique, so first-match lookup is the dict lookup. -/
def dictGet (d : GeneDict) (k : String) : Option (Finset String) :=
  (List.find? (fun p => decide (p.1 = k)) d).map Prod.snd

/-- Python dict assignment `d[k] = v`: if the key is present its value is
updated in place (insertion position kept), otherwise the pair is appended. -/
def dictInsert (d : GeneDict) (k : String) (v : Finset String) : GeneDict :=
  if List.any d (fun p => decide (p.1 = k)) then
    List.map (fun p => if p.1 = k then (k, v) else p) d
  else d ++ [(k, v)]

/-- One row of the tab-delimited reference table, restricted to the two
columns the script reads. -/
structure Row where
  Symbol : String
  Synonyms : String
deriving DecidableEq

/-- Normalisation applied to the `Symbol` cell: `row['Symbol'].strip().lower()`. -/
def normSym (s : String) : String := pyLower (pyStrip s)

/-- Parsing of the `Synonyms` cell:
`[syn.strip().lower() for syn in row['Synonyms'].split('|')] if row['Synonyms'] else []`,
collected into a set. Note the code keeps empty pieces produced by the split. -/
def parseSynonyms (s : String) : Finset String :=
  if s = "" then ∅
  else (List.map (fun x => pyLower (pyStrip x)) (splitPipe s)).toFinset

/-- The row loop of `load_gene_info`: fold the rows into the dict. -/
def loadRows (rows : List Row) : GeneDict :=
  List.foldl (fun d r => dictInsert d (normSym r.Symbol) (parseSynonyms r.Synonyms)) [] rows

/-- Message of the `ValueError` raised when required columns are missing. -/
def configErrorMsg : String :=
  "Gene info file must contain required columns Symbol and Synonyms"

/-- `load_gene_info`: validates that the header contains the required columns
`Symbol` and `Synonyms` before reading any row, then builds the dict. -/
def load_gene_info (fieldnames : List String) (rows : List Row) :
    Except String GeneDict :=
  if "Symbol" ∈ fieldnames ∧ "Synonyms" ∈ fieldnames then
    Except.ok (loadRows rows)
  else Except.error configErrorMsg

/-- Per-gene contribution of the expansion loop body: the gene itself, plus
its synonym set when the gene is a canonical key of the dict. -/
def expandOne (d : GeneDict) (gene : String) : Finset String :=
  match dictGet d gene with
  | some syns => insert gene syns
  | none => {gene}

/-- `expand_gene_set_with_synonyms`: union over the input set of each gene's
contribution. -/
def expand_gene_set_with_synonyms (gene_set : Finset String) (gene_dict : GeneDict) :
    Finset String :=
  gene_set.biUnion (expandOne gene_dict)

/-- Python `str()` of a bool. -/
def boolToPyStr (b : Bool) : String := if b then "True" else "False"

/-- One output record of `compare_files`. -/
structure ResultRecord where
  Gene : String
  Synonyms : String
  Present_in_A : String
deriving DecidableEq

/-- The body of the `for gene_b in file_b_genes` loop of `compare_files`:
scan the dict in iteration order for the first entry whose key equals
`gene_b` or whose synonym set contains it; on a match take the matched
key with its synonyms and the presence test, otherwise keep the initial
empty set and `False`; then discard `gene_b` from its own synonyms and
render the record. -/
def processGene (gene_dict : GeneDict) (expandedA : Finset String) (gene_b : String) :
    ResultRecord :=
  let firstMatch :=
    List.find? (fun p => decide (gene_b = p.1 ∨ gene_b ∈ p.2)) gene_dict
  let synonyms_b : Finset String :=
    match firstMatch with
    | some p => insert p.1 p.2
    | none => ∅
  let present_in_a : Bool :=
    match firstMatch with
    | some p => decide (p.1 ∈ expandedA) || decide (∃ x ∈ p.2, x ∈ expandedA)
    | none => false
  { Gene := gene_b
    Synonyms := String.intercalate "|" (pySortedFin (synonyms_b.erase gene_b))
    Present_in_A := boolToPyStr present_in_a }

/-- `compare_files`: expand file A through the dict, then emit one record per
gene of file B. `file_b_genes` is given as the iteration order of the Python
set (a duplicate-free list). -/
def compare_files (gene_dict : GeneDict) (file_a_genes : Finset String)
    (file_b_genes : List String) : List ResultRecord :=
  let expanded_file_a := expand_gene_set_with_synonyms file_a_genes gene_dict
  List.map (processGene gene_dict expanded_file_a) file_b_genes

/-- The `main` pipeline up to comparison: load the gene info (aborting on a
missing column), then compare. File reading is I/O glue and is given as data. -/
def run_pipeline (fieldnames : List String) (rows : List Row)
    (file_a_genes : Finset String) (file_b_genes : List String) :
    Except String (List ResultRecord) := do
  let gene_dict ← load_gene_info fieldnames rows
  pure (compare_files gene_dict file_a_genes file_b_genes)

/-! ### Helper lemmas about expansion -/

theorem mem_expandOne {d : GeneDict} {g x : String} :
    x ∈ expandOne d g ↔ x = g ∨ ∃ syns, dictGet d g = some syns ∧ x ∈ syns := by
  unfold expandOne
  cases h : dictGet d g with
  | none => simp [h]
  | some syns => simp [h]

theorem self_mem_expandOne (d : GeneDict) (g : String) : g ∈ expandOne d g :=
  mem_expandOne.mpr (Or.inl rfl)

theorem mem_expand {S : Finset String} {d : GeneDict} {x : String} :
    x ∈ expand_gene_set_with_synonyms S d ↔
      x ∈ S ∨ ∃ g ∈ S, ∃ syns, dictGet d g = some syns ∧ x ∈ syns := by
  unfold expand_gene_set_with_synonyms
  rw [Finset.mem_biUnion]
  constructor
  · rintro ⟨g, hg, hx⟩
    rcases mem_expandOne.mp hx with rfl | ⟨syns, hd, hxs⟩
    · exact Or.inl hg
    · exact Or.inr ⟨g, hg, syns, hd, hxs⟩
  · rintro (hx | ⟨g, hg, syns, hd, hxs⟩)
    · exact ⟨x, hx, self_mem_expandOne d x⟩
    · exact ⟨g, hg, mem_expandOne.mpr (Or.inr ⟨syns, hd, hxs⟩)⟩

theorem subset_expand (S : Finset String) (d : GeneDict) :
    S ⊆ expand_gene_set_with_synonyms S d :=
  fun x hx => mem_expand.mpr (Or.inl hx)

theorem dictGet_eq_some_mem {d : GeneDict} {k : String} {v : Finset String}
    (h : dictGet d k = some v) : (k, v) ∈ d := by
  unfold dictGet at h
  cases hf : List.find? (fun p => decide (p.1 = k)) d with
  | none => rw [hf] at h; cases h
  | some p =>
    rw [hf] at h
    have hp : p ∈ d := List.mem_of_find?_eq_some hf
    have hpred := List.find?_some hf
    have hk : p.1 = k := of_decide_eq_true hpred
    have hv : p.2 = v := by
      simpa using h
    rw [← hk, ← hv]
    exact hp

/-! ### Claim theorems: expansion -/

/-- C4: `expand_gene_set_with_synonyms` contains exactly the genes of the
input set plus, for each input gene that is a canonical key of the index,
the synonyms under that key, and nothing else; in particular a gene that is
only a synonym (never a key) contributes no additional names — expansion
follows only the canonical-to-synonym direction. -/
theorem c4_expand_characterization (S : Finset String) (d : GeneDict) (x : String) :
    x ∈ expand_gene_set_with_synonyms S d ↔
      x ∈ S ∨ ∃ g ∈ S, ∃ syns, dictGet d g = some syns ∧ x ∈ syns :=
  mem_expand

/-- C7: the expanded set contains the input set, so its size is at least the
input's size (purity is by construction in this embedding, matching the
code, which only reads its arguments). -/
theorem c7_expand_superset_card (S : Finset String) (d : GeneDict) :
    S ⊆ expand_gene_set_with_synonyms S d ∧
      S.card ≤ (expand_gene_set_with_synonyms S d).card :=
  ⟨subset_expand S d, Finset.card_le_card (subset_expand S d)⟩

/-- C2 counterexample: with the index mapping a to b and b to c, expanding
the set containing a once yields a and b, but expanding twice also pulls in
c, so expansion is not idempotent as claimed. -/
theorem c2_expand_not_idempotent :
    expand_gene_set_with_synonyms
        (expand_gene_set_with_synonyms {"a"} [("a", {"b"}), ("b", {"c"})])
        [("a", {"b"}), ("b", {"c"})] ≠
      expand_gene_set_with_synonyms {"a"} [("a", {"b"}), ("b", {"c"})] := by
  decide

/-- C2 amended: expansion is idempotent provided no synonym listed in the
index is itself a canonical key of the index; without that restriction a
synonym that is also a key can contribute new members on the second
application. -/
theorem c2_expand_idempotent_of_no_synonym_key (d : GeneDict) (S : Finset String)
    (h : ∀ p ∈ d, ∀ x ∈ p.2, dictGet d x = none) :
    expand_gene_set_with_synonyms (expand_gene_set_with_synonyms S d) d =
      expand_gene_set_with_synonyms S d := by
  apply Finset.Subset.antisymm
  · intro x hx
    rcases mem_expand.mp hx with hx' | ⟨g, hg, syns, hd, hxs⟩
    · exact hx'
    · rcases mem_expand.mp hg with hgS | ⟨g0, hg0, syns0, hd0, hgs⟩
      · exact mem_expand.mpr (Or.inr ⟨g, hgS, syns, hd, hxs⟩)
      · have hnone : dictGet d g = none :=
          h (g0, syns0) (dictGet_eq_some_mem hd0) g hgs
        rw [hnone] at hd
        cases hd
  · exact subset_expand _ d

/-- Witness for the amended C2 at a concrete index and set. -/
theorem c2_expand_idempotent_witness :
    (∀ p ∈ ([("a", {"b"})] : GeneDict), ∀ x ∈ p.2, dictGet [("a", {"b"})] x = none) ∧
      expand_gene_set_with_synonyms
          (expand_gene_set_with_synonyms {"a"} [("a", {"b"})]) [("a", {"b"})] =
        expand_gene_set_with_synonyms {"a"} [("a", {"b"})] :=
  ⟨by decide, c2_expand_idempotent_of_no_synonym_key [("a", {"b"})] {"a"} (by decide)⟩

/-! ### Helper lemmas about the comparator -/

theorem boolToPyStr_or (P Q : Prop) [Decidable P] [Decidable Q] :
    boolToPyStr (decide P || decide Q) = if P ∨ Q then "True" else "False" := by
  by_cases hp : P
  · simp [hp, boolToPyStr]
  · by_cases hq : Q
    · simp [hp, hq, boolToPyStr]
    · simp [hp, hq, boolToPyStr]

/-! ### Claim theorems: comparator -/

/-- C10: when a query gene matches some index entry (as the key or as one of
its synonyms), direct membership of the query gene in the expanded A set
forces the emitted presence value to be the string True, because the
matched-case test covers the gene itself through the matched key or its
synonym set. -/
theorem c10_matched_present_direct (d : GeneDict) (a : Finset String)
    (gene_b canon : String) (syns : Finset String)
    (hm : List.find? (fun p => decide (gene_b = p.1 ∨ gene_b ∈ p.2)) d = some (canon, syns))
    (hb : gene_b ∈ expand_gene_set_with_synonyms a d) :
    (processGene d (expand_gene_set_with_synonyms a d) gene_b).Present_in_A = "True" := by
  have hpred := List.find?_some hm
  have hor : gene_b = canon ∨ gene_b ∈ syns := of_decide_eq_true hpred
  simp only [processGene, hm]
  rcases hor with rfl | hsyn
  · have h1 : decide (gene_b ∈ expand_gene_set_with_synonyms a d) = true := decide_eq_true hb
    simp [h1, boolToPyStr]
  · have h2 : decide (∃ x ∈ syns, x ∈ expand_gene_set_with_synonyms a d) = true :=
      decide_eq_true ⟨gene_b, hsyn, hb⟩
    simp [h2, boolToPyStr]

/-- Witness for C10 at a concrete dict, file A and query gene. -/
theorem c10_matched_present_direct_witness :
    (List.find? (fun p => decide ("x" = p.1 ∨ "x" ∈ p.2)) ([("x", ∅)] : GeneDict) =
        some ("x", ∅)) ∧
      "x" ∈ expand_gene_set_with_synonyms {"x"} [("x", ∅)] ∧
      (processGene [("x", ∅)] (expand_gene_set_with_synonyms {"x"} [("x", ∅)])
          "x").Present_in_A = "True" :=
  ⟨by decide, by decide,
    c10_matched_present_direct [("x", ∅)] {"x"} "x" "x" ∅ (by decide) (by decide)⟩

/-- C6: for a query gene matching the entry with key canon and synonyms
syns, the emitted record carries the query gene, the equivalence class
(canon together with syns) minus the gene itself, sorted lexicographically
and pipe-joined, and the True/False string rendering of the presence
boolean (the join of the empty list being the empty string). -/
theorem c6_matched_record_fields (d : GeneDict) (a : Finset String)
    (gene_b canon : String) (syns : Finset String)
    (hm : List.find? (fun p => decide (gene_b = p.1 ∨ gene_b ∈ p.2)) d = some (canon, syns)) :
    processGene d (expand_gene_set_with_synonyms a d) gene_b =
      { Gene := gene_b
        Synonyms :=
          String.intercalate "|" (Finset.sort (· ≤ ·) ((insert canon syns).erase gene_b))
        Present_in_A :=
          if canon ∈ expand_gene_set_with_synonyms a d ∨
              ∃ x ∈ syns, x ∈ expand_gene_set_with_synonyms a d
          then "True" else "False" } := by
  simp only [processGene, hm, pySortedFin_eq_sort, boolToPyStr_or]

/-- Witness for C6 at a concrete dict whose only entry matches the query
gene as a synonym. -/
theorem c6_matched_record_fields_witness :
    (List.find? (fun p => decide ("s" = p.1 ∨ "s" ∈ p.2)) ([("c", {"s"})] : GeneDict) =
        some ("c", {"s"})) ∧
      processGene [("c", {"s"})] (expand_gene_set_with_synonyms ∅ [("c", {"s"})]) "s" =
        { Gene := "s"
          Synonyms :=
            String.intercalate "|"
              (Finset.sort (· ≤ ·) ((insert "c" ({"s"} : Finset String)).erase "s"))
          Present_in_A :=
            if "c" ∈ expand_gene_set_with_synonyms ∅ [("c", {"s"})] ∨
                ∃ x ∈ ({"s"} : Finset String),
                  x ∈ expand_gene_set_with_synonyms ∅ [("c", {"s"})]
            then "True" else "False" } :=
  ⟨by decide, c6_matched_record_fields [("c", {"s"})] ∅ "s" "c" {"s"} (by decide)⟩

/-- C5: the comparator output has exactly one record per element of the
query list: the output length equals the input length, and each query gene
heads exactly one record. -/
theorem c5_one_record_per_gene (d : GeneDict) (a : Finset String) (bs : List String)
    (hnd : bs.Nodup) (b : String) (hb : b ∈ bs) :
    (compare_files d a bs).length = bs.length ∧
      List.countP (fun r => decide (r.Gene = b)) (compare_files d a bs) = 1 := by
  constructor
  · simp [compare_files]
  · unfold compare_files
    rw [List.countP_map]
    have hcongr : ∀ x ∈ bs,
        (((fun r => decide (r.Gene = b)) ∘
          processGene d (expand_gene_set_with_synonyms a d)) x = true) ↔ ((x == b) = true) := by
      intro x _
      have hg : (processGene d (expand_gene_set_with_synonyms a d) x).Gene = x := rfl
      simp [Function.comp, hg, beq_iff_eq]
    rw [List.countP_congr hcongr]
    exact List.count_eq_one_of_mem hnd hb

/-- Witness for C5 at a concrete dict and query list. -/
theorem c5_one_record_per_gene_witness :
    (["x"] : List String).Nodup ∧ "x" ∈ (["x"] : List String) ∧
      ((compare_files [] ∅ ["x"]).length = (["x"] : List String).length ∧
        List.countP (fun r => decide (r.Gene = "x")) (compare_files [] ∅ ["x"]) = 1) :=
  ⟨by decide, by decide, c5_one_record_per_gene [] ∅ ["x"] (by decide) "x" (by decide)⟩

/-- C1: evaluation exhibiting the divergence. With an empty index and the
gene x present in both files, x matches no index entry; the record keeps
the empty synonyms but renders presence False even though x is a direct
member of the expanded A set — the unmatched branch never performs the
direct membership test the spec describes. -/
theorem c1_unmatched_skips_direct_membership :
    compare_files [] {"x"} ["x"] =
        [{ Gene := "x", Synonyms := "", Present_in_A := "False" }] ∧
      "x" ∈ expand_gene_set_with_synonyms {"x"} [] :=
  ⟨by decide, by decide⟩

/-- C3 counterexample: a row whose synonym cell is written a followed by a
pipe yields the synonym set containing a and the empty string — empty
pieces are not discarded, so a synonym set can contain the empty string. -/
theorem c3_synonym_set_contains_empty :
    dictGet (loadRows [⟨"g", "a|"⟩]) "g" = some {"a", ""} ∧
      "" ∈ ({"a", ""} : Finset String) :=
  ⟨by decide, by decide⟩

/-- C3 amended: a nonempty synonym cell is split on the pipe and every
piece is trimmed, lowercased and collected into a set, empty pieces
included; an empty cell yields the empty set. -/
theorem c3_parse_synonyms_characterization (s x : String) :
    x ∈ parseSynonyms s ↔
      s ≠ "" ∧ ∃ piece ∈ splitPipe s, pyLower (pyStrip piece) = x := by
  unfold parseSynonyms
  by_cases h : s = ""
  · simp [h]
  · simp [h, List.mem_toFinset, List.mem_map]

/-! ### Helper lemmas about dict construction -/

theorem dictGet_cons (p : String × Finset String) (d : GeneDict) (q : String) :
    dictGet (p :: d) q = if p.1 = q then some p.2 else dictGet d q := by
  unfold dictGet
  by_cases h : p.1 = q
  · rw [List.find?_cons_of_pos _ (by simpa using h)]
    simp [h]
  · rw [List.find?_cons_of_neg _ (by simpa using h)]
    simp [h]

theorem dictGet_map_update (d : GeneDict) (k : String) (v : Finset String) (q : String) :
    dictGet (List.map (fun p => if p.1 = k then (k, v) else p) d) q =
      if q = k then (if List.any d (fun p => decide (p.1 = k)) then some v else none)
      else dictGet d q := by
  induction d with
  | nil => simp [dictGet]
  | cons p d' ih =>
    simp only [List.map_cons, List.any_cons]
    by_cases hpk : p.1 = k
    · by_cases hqk : q = k
      · subst hqk
        simp [dictGet_cons, hpk, ih]
      · have hne : ¬ k = q := fun h => hqk h.symm
        simp [dictGet_cons, hpk, hqk, hne, ih]
    · simp only [decide_eq_false hpk, Bool.false_or]
      by_cases hpq : p.1 = q
      · have hqk : ¬ q = k := fun h => hpk (hpq.trans h)
        simp [dictGet_cons, hpk, hpq, hqk]
      · simp [dictGet_cons, hpk, hpq, ih]

theorem dictGet_append_of_not_mem (d : GeneDict) (k : String) (v : Finset String)
    (q : String) (h : List.any d (fun p => decide (p.1 = k)) = false) :
    dictGet (d ++ [(k, v)]) q = if q = k then some v else dictGet d q := by
  unfold dictGet
  rw [List.find?_append]
  by_cases hqk : q = k
  · subst hqk
    have hnone : List.find? (fun p => decide (p.1 = q)) d = none := by
      rw [List.find?_eq_none]
      intro x hx hdec
      have : List.any d (fun p => decide (p.1 = q)) = true :=
        List.any_eq_true.mpr ⟨x, hx, hdec⟩
      rw [h] at this
      cases this
    rw [hnone, Option.none_or]
    rw [List.find?_cons_of_pos _ (by simp)]
    simp
  · have hkq : ¬ ((k, v).1 = q) := fun hh => hqk hh.symm
    have hnone : List.find? (fun p => decide (p.1 = q)) [(k, v)] = none := by
      rw [List.find?_cons_of_neg _ (by simpa using hkq)]
      rfl
    rw [hnone, Option.or_none]
    simp [hqk]

theorem dictGet_dictInsert (d : GeneDict) (k : String) (v : Finset String) (q : String) :
    dictGet (dictInsert d k v) q = if q = k then some v else dictGet d q := by
  unfold dictInsert
  by_cases h : List.any d (fun p => decide (p.1 = k)) = true
  · rw [if_pos (by simpa using h), dictGet_map_update, h]
    simp
  · have h' : List.any d (fun p => decide (p.1 = k)) = false :=
      Bool.eq_false_iff.mpr h
    rw [if_neg (by simpa using h), dictGet_append_of_not_mem d k v q h']

theorem dictGet_foldl_rows (rows : List Row) (d : GeneDict) (k : String) :
    dictGet
        (List.foldl (fun d r => dictInsert d (normSym r.Symbol) (parseSynonyms r.Synonyms))
          d rows) k =
      match List.find? (fun r => decide (normSym r.Symbol = k)) rows.reverse with
      | some r => some (parseSynonyms r.Synonyms)
      | none => dictGet d k := by
  induction rows generalizing d with
  | nil => simp
  | cons r rs ih =>
    simp only [List.foldl_cons, List.reverse_cons, List.find?_append]
    rw [ih]
    cases hf : List.find? (fun r => decide (normSym r.Symbol = k)) rs.reverse with
    | some r' => simp
    | none =>
      simp only [Option.none_or]
      rw [dictGet_dictInsert]
      by_cases hr : normSym r.Symbol = k
      · rw [List.find?_cons_of_pos _ (by simpa using hr)]
        simp [hr]
      · rw [List.find?_cons_of_neg _ (by simpa using hr)]
        have hne : ¬ k = normSym r.Symbol := fun hh => hr hh.symm
        simp [hne]

theorem keys_dictInsert_nodup (d : GeneDict) (k : String) (v : Finset String)
    (h : (d.map Prod.fst).Nodup) : ((dictInsert d k v).map Prod.fst).Nodup := by
  unfold dictInsert
  by_cases hany : List.any d (fun p => decide (p.1 = k)) = true
  · rw [if_pos (by simpa using hany)]
    have hkeys :
        List.map Prod.fst (List.map (fun p => if p.1 = k then (k, v) else p) d) =
          List.map Prod.fst d := by
      rw [List.map_map]
      apply List.map_congr_left
      intro p _
      by_cases hp : p.1 = k
      · simp [Function.comp, hp]
      · simp [Function.comp, hp]
    rw [hkeys]
    exact h
  · rw [if_neg (by simpa using hany)]
    rw [List.map_append]
    rw [List.nodup_append]
    refine ⟨h, List.nodup_singleton k, ?_⟩
    intro a ha hb
    simp only [List.map_cons, List.map_nil, List.mem_singleton] at hb
    subst hb
    rcases List.mem_map.mp ha with ⟨p, hp, hpk⟩
    exact hany (List.any_eq_true.mpr ⟨p, hp, decide_eq_true hpk⟩)

theorem keys_foldl_nodup (rows : List Row) (d : GeneDict)
    (h : (d.map Prod.fst).Nodup) :
    ((List.foldl (fun d r => dictInsert d (normSym r.Symbol) (parseSynonyms r.Synonyms))
        d rows).map Prod.fst).Nodup := by
  induction rows generalizing d with
  | nil => exact h
  | cons r rs ih =>
    exact ih _ (keys_dictInsert_nodup d _ _ h)

theorem mem_keys_iff_isSome (d : GeneDict) (k : String) :
    k ∈ d.map Prod.fst ↔ (dictGet d k).isSome := by
  unfold dictGet
  have hmap :
      (Option.map Prod.snd (List.find? (fun p => decide (p.1 = k)) d)).isSome =
        (List.find? (fun p => decide (p.1 = k)) d).isSome := by
    cases List.find? (fun p => decide (p.1 = k)) d <;> rfl
  rw [hmap, List.find?_isSome]
  simp only [List.mem_map]
  constructor
  · rintro ⟨p, hp, hpk⟩
    exact ⟨p, hp, decide_eq_true hpk⟩
  · rintro ⟨p, hp, hpk⟩
    exact ⟨p, hp, of_decide_eq_true hpk⟩

/-! ### Claim theorems: index construction and validation -/

/-- C8: the built index has duplicate-free keys; looking a key up yields the
parsed synonym set of the last reference-table row whose normalised symbol
equals it (last occurrence wins); a key is present exactly when some row
carries it; and an empty synonym cell parses to the empty set, so a row
with an empty cell still contributes its key, mapped to the empty set. -/
theorem c8_load_last_occurrence_wins (rows : List Row) (k : String) :
    ((loadRows rows).map Prod.fst).Nodup ∧
      dictGet (loadRows rows) k =
        Option.map (fun r => parseSynonyms r.Synonyms)
          (List.find? (fun r => decide (normSym r.Symbol = k)) rows.reverse) ∧
      (k ∈ (loadRows rows).map Prod.fst ↔ ∃ r ∈ rows, normSym r.Symbol = k) ∧
      parseSynonyms "" = ∅ := by
  have hget := dictGet_foldl_rows rows [] k
  refine ⟨keys_foldl_nodup rows [] (by simp), ?_, ?_, by simp [parseSynonyms]⟩
  · unfold loadRows
    rw [hget]
    cases List.find? (fun r => decide (normSym r.Symbol = k)) rows.reverse with
    | some r => rfl
    | none => simp [dictGet]
  · rw [mem_keys_iff_isSome]
    unfold loadRows
    rw [hget]
    cases hf : List.find? (fun r => decide (normSym r.Symbol = k)) rows.reverse with
    | some r =>
      simp only [Option.isSome_some, true_iff]
      have hpred := List.find?_some hf
      refine ⟨r, ?_, of_decide_eq_true hpred⟩
      exact List.mem_reverse.mp (List.mem_of_find?_eq_some hf)
    | none =>
      simp only [dictGet, List.find?_nil, Option.map_none', Option.isSome_none]
      constructor
      · intro h
        cases h
      · rintro ⟨r, hr, hrk⟩
        exact absurd (decide_eq_true hrk)
          (List.find?_eq_none.mp hf r (List.mem_reverse.mpr hr))

/-- C9: loading fails with the configuration error exactly when the header
misses Symbol or Synonyms, the whole pipeline then aborts with that same
error before any comparison is produced, and with both columns present the
pipeline reaches the comparison and never raises that error. -/
theorem c9_missing_columns_error (fns : List String) (rows : List Row)
    (a : Finset String) (bs : List String) :
    (load_gene_info fns rows = Except.error configErrorMsg ↔
        ¬("Symbol" ∈ fns ∧ "Synonyms" ∈ fns)) ∧
      (run_pipeline fns rows a bs = Except.error configErrorMsg ↔
        ¬("Symbol" ∈ fns ∧ "Synonyms" ∈ fns)) ∧
      (run_pipeline fns rows a bs = Except.ok (compare_files (loadRows rows) a bs) ↔
        ("Symbol" ∈ fns ∧ "Synonyms" ∈ fns)) := by
  by_cases h : "Symbol" ∈ fns ∧ "Synonyms" ∈ fns
  · simp [load_gene_info, run_pipeline, h, Except.bind]
  · simp [load_gene_info, run_pipeline, h, Except.bind]
